import Mathlib

/-!
Verification development for `bpvo/template_data_.h` (template data of a
direct visual odometry pipeline).  The C++ class `TemplateData_<Channels,Warp>`
is embedded shallowly: image intensities, interpolation weights and pose
entries become exact rationals, image dimensions and pixel indices become
integers, and the injected `Warp` / `Channels` capabilities become structures
of functions.  `std::vector` state becomes `List`, with `resize` modelled by
`listResize` (truncate or pad with the value-initialised default) and indexed
stores modelled by `List.set`.
-/

attribute [local semireducible] Rat.add Rat.mul Rat.sub Rat.inv

namespace bpvo

/-- Entries of a 4x4 pose matrix (bpvo `Matrix44`), as exact rationals. -/
def Matrix44 : Type := Fin 4 → Fin 4 → ℚ

/-- Modelled from the spec: the saliency map produced by the Channels
capability (`computeSaliencyMap`, not under `src/`): a 2D scalar map aligned
with the image grid, exposing `rows`, `cols` and per-pixel scores. -/
structure SMap where
  rows : ℤ
  cols : ℤ
  val : ℤ → ℤ → ℚ

/-- Modelled from the spec: the `DisparityPyramidLevel` view of the
depth/disparity capability (declared in `bpvo/imgproc.h`, not under `src/`):
a 2D floating-point map indexable as `dmap(y,x)` together with the
"valid depth reading" test used by the pixel-selection predicate. -/
structure DMap where
  depth : ℤ → ℤ → ℚ
  validAt : ℤ → ℤ → Bool

/-- Modelled from the spec: the multi-channel image capability.  All channels
share the same `rows`/`cols` (hence the same stride) and expose a flat
row-major buffer `data c` for each channel index `c < nc`; `nc` is the
compile-time `NumChannels`, which the capability contract requires to equal
`channels.size()`.  `saliency` models `computeSaliencyMap()`. -/
structure Channels (nc : ℕ) where
  rows : ℤ
  cols : ℤ
  data : ℕ → ℤ → ℚ
  saliency : SMap

/-- Modelled from the spec: the warp capability (`WarpType`, not under
`src/`): a mutable current pose plus the operations `makePoint`,
`warpJacobianAtZero` (a 2xP matrix per point), projection under a given pose
(`operator()` projects under the current pose), and the intrinsic matrix
accessor `K`.  `Pt` is the warp's point representation, `P` the number of
pose parameters. -/
structure Warp (Pt : Type) (P : ℕ) where
  pose : Matrix44
  makePoint : ℤ → ℤ → ℚ → Pt
  warpJacobianAtZero : Pt → Fin 2 → Fin P → ℚ
  project : Matrix44 → Pt → ℚ × ℚ
  K : Fin 3 → Fin 3 → ℚ

/-- The warp's `setPose`: replaces the current pose, everything else kept. -/
def Warp.setPose {Pt : Type} {P : ℕ} (w : Warp Pt P) (pose : Matrix44) : Warp Pt P :=
  { w with pose := pose }

/-- The warp's `operator()`: project a point under the current pose. -/
def Warp.proj {Pt : Type} {P : ℕ} (w : Warp Pt P) (p : Pt) : ℚ × ℚ :=
  w.project w.pose p

/-- The state of `TemplateData_<ChannelsType, WarpType>`: the parallel arrays
`_points`, `_pixels`, `_jacobians`, the owned warp `_warp`, and the fixed
pyramid level `_pyr_level`.  A Jacobian row is a `1xP` vector `Fin P → ℚ`. -/
structure TemplateData_ (Pt : Type) (nc P : ℕ) where
  pyr_level : ℤ
  points : List Pt
  pixels : List ℚ
  jacobians : List (Fin P → ℚ)
  warp : Warp Pt P

/-- Accessor `numPoints()`: the number of stored points. -/
def TemplateData_.numPoints {Pt : Type} {nc P : ℕ} (td : TemplateData_ Pt nc P) : ℕ :=
  td.points.length

/-- Accessor `numPixels()`: the number of stored reference intensities. -/
def TemplateData_.numPixels {Pt : Type} {nc P : ℕ} (td : TemplateData_ Pt nc P) : ℕ :=
  td.pixels.length

/-- The integers `lo, lo+1, ..., hi-1`, i.e. a C loop `for(i = lo; i < hi; ++i)`. -/
def intRange (lo hi : ℤ) : List ℤ :=
  (List.range (hi - lo).toNat).map (fun k : ℕ => lo + (k : ℤ))

/-- Modelled from the spec: the non-maximum-suppression part of
`ValidPixelPredicate` (declared in `bpvo/imgproc.h`, not under `src/`): the
pixel is a local maximum of the saliency map within the given radius. -/
def isLocalMax (smap : SMap) (radius : ℤ) (y x : ℤ) : Bool :=
  (intRange (-radius) (radius + 1)).all (fun dy =>
    (intRange (-radius) (radius + 1)).all (fun dx =>
      decide (smap.val (y + dy) (x + dx) ≤ smap.val y x)))

/-- Modelled from the spec: `ValidPixelPredicate` (declared in
`bpvo/imgproc.h`, not under `src/`): a pixel is eligible iff it has a valid
depth reading and, when the non-maximum-suppression radius is nonnegative,
is a local maximum of saliency within that radius. -/
def ValidPixelPredicate (dmap : DMap) (smap : SMap) (radius : ℤ) (y x : ℤ) : Bool :=
  dmap.validAt y x && (decide (radius < 0) || isLocalMax smap radius y x)

/-- `getValidPixelsLocations` (template_data_.h, lines 120-137): scan the
border-cropped saliency map in row-major order and collect
`(y*cols + x, dmap(y,x))` for every eligible pixel.  The loop bounds are
`border <= y < rows - border - 1` and `border <= x < cols - border - 1`
with `border = max(2, nms_radius)`. -/
def getValidPixelsLocations (dmap : DMap) (smap : SMap) (nms_radius : ℤ)
    (do_nonmax_supp : Bool) : List (ℤ × ℚ) :=
  let border : ℤ := max 2 nms_radius
  (intRange border (smap.rows - border - 1)).flatMap (fun y =>
    (intRange border (smap.cols - border - 1)).filterMap (fun x =>
      if ValidPixelPredicate dmap smap (if do_nonmax_supp then nms_radius else -1) y x
      then some (y * smap.cols + x, dmap.depth y x)
      else none))

/-- The index/depth pairs `inds` computed at the start of `setData`
(lines 193-197): saliency from the channels, NMS enabled iff the map has at
least `minPix` pixels (`AlgorithmParameters::MIN_NUM_FOR_PIXEL_PSELECTION`,
declared outside `src/` and therefore passed as the parameter `minPix`),
and `nms_radius = 1`. -/
def selectedInds {nc : ℕ} (minPix : ℤ) (ch : Channels nc) (dmap : DMap) : List (ℤ × ℚ) :=
  let smap := ch.saliency
  getValidPixelsLocations dmap smap 1 (decide (smap.rows * smap.cols ≥ minPix))

/-- The all-zero Jacobian row `Jacobian::Zero()`. -/
def jacobianZero (P : ℕ) : Fin P → ℚ :=
  fun _ => 0

/-- `TemplateData_::setData` (lines 188-256).  Points: back-project each
selected index via `ind2sub` (row = idx / stride, col = idx mod stride,
stride = saliency cols) and `makePoint`.  Pixels and Jacobians: for each
channel `c` the C++ resizes the arrays and overwrites the full block
`[c*N, c*N+N)`; the result is the channel-major concatenation written here
directly.  The gradient uses central differences with the saliency stride,
scaled by half the focal lengths, times the warp Jacobian at the identity
pose.  A final all-zero Jacobian row is appended (SSE padding). -/
def setData {Pt : Type} {nc P : ℕ} (minPix : ℤ) (td : TemplateData_ Pt nc P)
    (ch : Channels nc) (dmap : DMap) : TemplateData_ Pt nc P :=
  let inds := selectedInds minPix ch dmap
  let stride := ch.saliency.cols
  let points := inds.map (fun pr => td.warp.makePoint (pr.1 % stride) (pr.1 / stride) pr.2)
  let Fx := td.warp.K 0 0 * (1/2 : ℚ)
  let Fy := td.warp.K 1 1 * (1/2 : ℚ)
  let pixels := (List.range nc).flatMap (fun c => inds.map (fun pr => ch.data c pr.1))
  let jacobians := (List.range nc).flatMap (fun c => inds.map (fun pr =>
    let ii := pr.1
    let Ix := ch.data c (ii + 1) - ch.data c (ii - 1)
    let Iy := ch.data c (ii + stride) - ch.data c (ii - stride)
    let Jw := td.warp.warpJacobianAtZero (td.warp.makePoint (ii % stride) (ii / stride) pr.2)
    fun j => Fx * Ix * Jw 0 j + Fy * Iy * Jw 1 j))
  { td with points := points, pixels := pixels,
            jacobians := jacobians ++ [jacobianZero P] }

/-- Per-point geometry computed in the first loop of `computeResiduals`
(lines 278-305): rounded base cell, validity flag and the four bilinear
interpolation coefficients. -/
structure PointGeom where
  xi : ℤ
  yi : ℤ
  valid : Bool
  w00 : ℚ
  w01 : ℚ
  w10 : ℚ
  w11 : ℚ

/-- Junk geometry used only as an out-of-range `getD` default. -/
def geomDefault : PointGeom :=
  ⟨0, 0, false, 0, 0, 0, 0⟩

/-- Round-half-up rounding `cvFloor(q + 0.5)` used for the base cell. -/
def roundHalfUp (q : ℚ) : ℤ :=
  ⌊q + 1/2⌋

/-- The body of the geometry loop for one projected coordinate `x`:
`xi = cvFloor(x[0]+0.5)`, `yi = cvFloor(x[1]+0.5)`, fractional remainders
relative to the rounded base, the bound check against
`max_cols = cols-1` / `max_rows = rows-1`, and the four weights. -/
def pointGeom (max_rows max_cols : ℤ) (x : ℚ × ℚ) : PointGeom :=
  let xi := roundHalfUp x.1
  let yi := roundHalfUp x.2
  let xf : ℚ := x.1 - (xi : ℚ)
  let yf : ℚ := x.2 - (yi : ℚ)
  { xi := xi, yi := yi,
    valid := decide (0 ≤ xi) && decide (xi < max_cols) &&
             decide (0 ≤ yi) && decide (yi < max_rows),
    w00 := (1 - yf) * (1 - xf), w01 := (1 - yf) * xf,
    w10 := yf * (1 - xf), w11 := yf * xf }

/-- The geometry of every stored point under the candidate pose: the warp's
pose is set first, then each point is projected with `operator()`. -/
def pointGeoms {Pt : Type} {nc P : ℕ} (td : TemplateData_ Pt nc P) (ch : Channels nc)
    (pose : Matrix44) : List PointGeom :=
  td.points.map (fun p => pointGeom (ch.rows - 1) (ch.cols - 1) ((td.warp.setPose pose).proj p))

/-- `std::vector::resize`: keep a prefix, pad with the value-initialised
default when growing. -/
def listResize {α : Type} (l : List α) (n : ℕ) (d : α) : List α :=
  l.take n ++ List.replicate (n - l.length) d

/-- A loop `for(i = 0; i < n; ++i) l[base + i] = f(i)` over a vector. -/
def writeSlots {α : Type} (f : ℕ → α) (base n : ℕ) (l : List α) : List α :=
  (List.range n).foldl (fun acc i => acc.set (base + i) (f i)) l

/-- The value written to residual slot `c*N + i` (lines 314-327): for a valid
point the dot product of the interpolation coefficients with the four
samples at `ii`, `ii+1`, `ii+stride`, `ii+stride+1` (with
`ii = yi*stride + xi` and `stride` the current image's cols) minus the
stored reference intensity; for an invalid point exactly `0`. -/
def residualEntry {Pt : Type} {nc P : ℕ} (td : TemplateData_ Pt nc P) (ch : Channels nc)
    (gs : List PointGeom) (c i : ℕ) : ℚ :=
  let g := gs.getD i geomDefault
  if g.valid then
    let stride := ch.cols
    let ii := g.yi * stride + g.xi
    (g.w00 * ch.data c ii + g.w01 * ch.data c (ii + 1) +
        g.w10 * ch.data c (ii + stride) + g.w11 * ch.data c (ii + stride + 1))
      - td.pixels.getD (c * td.numPoints + i) 0
  else 0

/-- The outputs of `computeResiduals`: the template data after the call
(the warp pose is mutated in place) and the two caller-supplied buffers
after the call. -/
structure ResidualsResult (Pt : Type) (nc P : ℕ) where
  tdata : TemplateData_ Pt nc P
  residuals : List ℚ
  valid : List Bool

/-- `TemplateData_::computeResiduals` (lines 258-331): set the warp pose,
resize `valid` to `numPoints()` and fill it from the per-point geometry,
resize `residuals` to `_pixels.size()` and overwrite slot `c*n + i` for
every channel `c` and point `i` with `residualEntry`.  The diagnostic
`printf`/`cout` calls in the source do not touch any modelled state. -/
def computeResiduals {Pt : Type} {nc P : ℕ} (td : TemplateData_ Pt nc P) (ch : Channels nc)
    (pose : Matrix44) (residuals : List ℚ) (valid : List Bool) : ResidualsResult Pt nc P :=
  let n := td.numPoints
  let gs := pointGeoms td ch pose
  let validOut := writeSlots (fun i => (gs.getD i geomDefault).valid) 0 n
      (listResize valid n false)
  let resOut := (List.range nc).foldl
      (fun acc c => writeSlots (residualEntry td ch gs c) (c * n) n acc)
      (listResize residuals td.numPixels 0)
  { tdata := { td with warp := td.warp.setPose pose },
    residuals := resOut, valid := validOut }

/-! ### List helper lemmas -/

theorem mem_intRange {lo hi z : ℤ} : z ∈ intRange lo hi ↔ lo ≤ z ∧ z < hi := by
  unfold intRange
  constructor
  · intro h
    obtain ⟨k, hk, hz⟩ := List.mem_map.mp h
    rw [List.mem_range] at hk
    omega
  · rintro ⟨h1, h2⟩
    refine List.mem_map.mpr ⟨(z - lo).toNat, ?_, ?_⟩
    · rw [List.mem_range]
      omega
    · omega

theorem listResize_length {α : Type} (l : List α) (n : ℕ) (d : α) :
    (listResize l n d).length = n := by
  unfold listResize
  rw [List.length_append, List.length_take, List.length_replicate]
  omega

theorem writeSlots_zero {α : Type} (f : ℕ → α) (base : ℕ) (l : List α) :
    writeSlots f base 0 l = l :=
  rfl

theorem writeSlots_succ {α : Type} (f : ℕ → α) (base n : ℕ) (l : List α) :
    writeSlots f base (n + 1) l = (writeSlots f base n l).set (base + n) (f n) := by
  unfold writeSlots
  rw [List.range_succ, List.foldl_append]
  rfl

theorem writeSlots_length {α : Type} (f : ℕ → α) (base n : ℕ) (l : List α) :
    (writeSlots f base n l).length = l.length := by
  induction n with
  | zero => rfl
  | succ m ih => rw [writeSlots_succ, List.length_set, ih]

theorem writeSlots_getElem?_lt {α : Type} (f : ℕ → α) (base n : ℕ) (l : List α)
    (k : ℕ) (hk : k < base) : (writeSlots f base n l)[k]? = l[k]? := by
  induction n with
  | zero => rfl
  | succ m ih =>
    rw [writeSlots_succ, List.getElem?_set_ne (by omega), ih]

theorem writeSlots_getElem?_mem {α : Type} (f : ℕ → α) (base n : ℕ) (l : List α)
    (i : ℕ) (hi : i < n) (hl : base + i < l.length) :
    (writeSlots f base n l)[base + i]? = some (f i) := by
  induction n with
  | zero => omega
  | succ m ih =>
    rw [writeSlots_succ]
    rcases Nat.lt_succ_iff_lt_or_eq.mp hi with h | rfl
    · rw [List.getElem?_set_ne (by omega), ih h]
    · exact List.getElem?_set_self (by rw [writeSlots_length]; exact hl)

theorem foldl_writeSlots_length {α : Type} (g : ℕ → ℕ → α) (n m : ℕ) (l : List α) :
    ((List.range m).foldl (fun acc c => writeSlots (g c) (c * n) n acc) l).length
      = l.length := by
  induction m generalizing l with
  | zero => rfl
  | succ k ih =>
    rw [List.range_succ, List.foldl_append]
    show ((List.range k).foldl _ l |> writeSlots (g k) (k * n) n).length = l.length
    rw [writeSlots_length, ih]

theorem foldl_writeSlots_getElem? {α : Type} (g : ℕ → ℕ → α) (n : ℕ) (c i : ℕ)
    (hi : i < n) (m : ℕ) (l : List α) (hc : c < m) (hk : c * n + i < l.length) :
    ((List.range m).foldl (fun acc c => writeSlots (g c) (c * n) n acc) l)[c * n + i]?
      = some (g c i) := by
  induction m generalizing l with
  | zero => omega
  | succ k ih =>
    rw [List.range_succ, List.foldl_append]
    show ((List.range k).foldl _ l |> writeSlots (g k) (k * n) n)[c * n + i]? = _
    rcases Nat.lt_succ_iff_lt_or_eq.mp hc with h | rfl
    · have hlt : c * n + i < k * n := by
        have h1 : c * n + i < (c + 1) * n := by rw [Nat.succ_mul]; omega
        have h2 : (c + 1) * n ≤ k * n := Nat.mul_le_mul_right n h
        omega
      rw [writeSlots_getElem?_lt _ _ _ _ _ hlt]
      exact ih l h hk
    · exact writeSlots_getElem?_mem _ _ _ _ _ hi
        (by rw [foldl_writeSlots_length]; exact hk)

theorem flatMap_blocks_length {α β : Type} (l : List α) (f : ℕ → α → β) (m : ℕ) :
    ((List.range m).flatMap (fun c => l.map (f c))).length = m * l.length := by
  induction m with
  | zero => simp
  | succ k ih =>
    rw [List.range_succ, List.flatMap_append, List.length_append, ih]
    simp [Nat.succ_mul]

theorem flatMap_blocks_getElem? {α β : Type} (l : List α) (f : ℕ → α → β)
    (m c i : ℕ) (hc : c < m) (hi : i < l.length) :
    ((List.range m).flatMap (fun c => l.map (f c)))[c * l.length + i]?
      = some (f c (l.get ⟨i, hi⟩)) := by
  induction m with
  | zero => omega
  | succ k ih =>
    rw [List.range_succ, List.flatMap_append]
    rcases Nat.lt_succ_iff_lt_or_eq.mp hc with h | rfl
    · rw [List.getElem?_append_left]
      · exact ih h
      · rw [flatMap_blocks_length]
        calc c * l.length + i < (c + 1) * l.length := by rw [Nat.succ_mul]; omega
        _ ≤ k * l.length := Nat.mul_le_mul_right _ h
    · rw [List.getElem?_append_right
        (by rw [flatMap_blocks_length]; exact Nat.le_add_right _ _)]
      rw [flatMap_blocks_length, Nat.add_sub_cancel_left]
      simp only [List.flatMap_singleton]
      rw [List.getElem?_map, List.getElem?_eq_getElem hi]
      rfl

/-! ### Rounding facts -/

theorem roundHalfUp_sub_le (q : ℚ) : -(1/2) ≤ q - (roundHalfUp q : ℚ) := by
  have h := Int.floor_le (q + 1/2)
  unfold roundHalfUp
  linarith

theorem roundHalfUp_sub_lt (q : ℚ) : q - (roundHalfUp q : ℚ) < 1/2 := by
  have h := Int.lt_floor_add_one (q + 1/2)
  unfold roundHalfUp
  push_cast at h ⊢
  linarith

theorem roundHalfUp_intCast (z : ℤ) : roundHalfUp (z : ℚ) = z := by
  unfold roundHalfUp
  rw [Int.floor_int_add]
  norm_num

/-! ### Reading the outputs of computeResiduals -/

theorem computeResiduals_valid_length {Pt : Type} {nc P : ℕ} (td : TemplateData_ Pt nc P)
    (ch : Channels nc) (pose : Matrix44) (r0 : List ℚ) (v0 : List Bool) :
    (computeResiduals td ch pose r0 v0).valid.length = td.numPoints := by
  show (writeSlots _ 0 td.numPoints (listResize v0 td.numPoints false)).length = _
  rw [writeSlots_length, listResize_length]

theorem computeResiduals_residuals_length {Pt : Type} {nc P : ℕ} (td : TemplateData_ Pt nc P)
    (ch : Channels nc) (pose : Matrix44) (r0 : List ℚ) (v0 : List Bool) :
    (computeResiduals td ch pose r0 v0).residuals.length = td.numPixels := by
  show ((List.range nc).foldl _ (listResize r0 td.numPixels 0)).length = _
  rw [foldl_writeSlots_length, listResize_length]

theorem computeResiduals_valid_getD {Pt : Type} {nc P : ℕ} (td : TemplateData_ Pt nc P)
    (ch : Channels nc) (pose : Matrix44) (r0 : List ℚ) (v0 : List Bool)
    (i : ℕ) (hi : i < td.numPoints) :
    (computeResiduals td ch pose r0 v0).valid.getD i false
      = ((pointGeoms td ch pose).getD i geomDefault).valid := by
  show (writeSlots _ 0 td.numPoints (listResize v0 td.numPoints false)).getD i false = _
  rw [List.getD_eq_getElem?_getD]
  have h0 : (0 : ℕ) + i = i := Nat.zero_add i
  rw [← h0, writeSlots_getElem?_mem _ _ _ _ _ hi (by rw [listResize_length]; omega), h0]
  rfl

theorem computeResiduals_residuals_getD {Pt : Type} {nc P : ℕ} (td : TemplateData_ Pt nc P)
    (ch : Channels nc) (pose : Matrix44) (r0 : List ℚ) (v0 : List Bool)
    (c i : ℕ) (hi : i < td.numPoints) (hc : c < nc)
    (hk : c * td.numPoints + i < td.numPixels) :
    (computeResiduals td ch pose r0 v0).residuals.getD (c * td.numPoints + i) 0
      = residualEntry td ch (pointGeoms td ch pose) c i := by
  show ((List.range nc).foldl _ (listResize r0 td.numPixels 0)).getD _ 0 = _
  rw [List.getD_eq_getElem?_getD]
  rw [foldl_writeSlots_getElem? _ _ _ _ hi _ _ hc (by rw [listResize_length]; exact hk)]
  rfl

theorem pointGeoms_getD {Pt : Type} {nc P : ℕ} (td : TemplateData_ Pt nc P)
    (ch : Channels nc) (pose : Matrix44) (i : ℕ) (hi : i < td.numPoints) :
    (pointGeoms td ch pose).getD i geomDefault
      = pointGeom (ch.rows - 1) (ch.cols - 1)
          ((td.warp.setPose pose).proj (td.points.get ⟨i, hi⟩)) := by
  unfold pointGeoms
  rw [List.getD_eq_getElem?_getD, List.getElem?_map,
    List.getElem?_eq_getElem hi]
  rfl

/-! ### Reading the arrays produced by setData -/

theorem setData_points_length {Pt : Type} {nc P : ℕ} (minPix : ℤ) (td : TemplateData_ Pt nc P)
    (ch : Channels nc) (dmap : DMap) :
    (setData minPix td ch dmap).points.length = (selectedInds minPix ch dmap).length := by
  show ((selectedInds minPix ch dmap).map _).length = _
  rw [List.length_map]

theorem setData_points_get {Pt : Type} {nc P : ℕ} (minPix : ℤ) (td : TemplateData_ Pt nc P)
    (ch : Channels nc) (dmap : DMap) (i : ℕ)
    (hp : i < (setData minPix td ch dmap).points.length)
    (hi : i < (selectedInds minPix ch dmap).length) :
    (setData minPix td ch dmap).points.get ⟨i, hp⟩
      = td.warp.makePoint (((selectedInds minPix ch dmap).get ⟨i, hi⟩).1 % ch.saliency.cols)
          (((selectedInds minPix ch dmap).get ⟨i, hi⟩).1 / ch.saliency.cols)
          ((selectedInds minPix ch dmap).get ⟨i, hi⟩).2 := by
  show ((selectedInds minPix ch dmap).map _).get ⟨i, hp⟩ = _
  simp only [List.get_eq_getElem, List.getElem_map]

theorem setData_pixels_getD {Pt : Type} {nc P : ℕ} (minPix : ℤ) (td : TemplateData_ Pt nc P)
    (ch : Channels nc) (dmap : DMap) (c i : ℕ) (hc : c < nc)
    (hi : i < (selectedInds minPix ch dmap).length) :
    (setData minPix td ch dmap).pixels.getD (c * (selectedInds minPix ch dmap).length + i) 0
      = ch.data c ((selectedInds minPix ch dmap).get ⟨i, hi⟩).1 := by
  show ((List.range nc).flatMap _).getD _ 0 = _
  rw [List.getD_eq_getElem?_getD, flatMap_blocks_getElem? _ _ _ _ _ hc hi]
  rfl

theorem setData_jacobians_getD {Pt : Type} {nc P : ℕ} (minPix : ℤ)
    (td : TemplateData_ Pt nc P) (ch : Channels nc) (dmap : DMap) (c i : ℕ) (hc : c < nc)
    (hi : i < (selectedInds minPix ch dmap).length) :
    (setData minPix td ch dmap).jacobians.getD
        (c * (selectedInds minPix ch dmap).length + i) (jacobianZero P)
      = (fun j => td.warp.K 0 0 * (1/2 : ℚ)
            * (ch.data c (((selectedInds minPix ch dmap).get ⟨i, hi⟩).1 + 1)
               - ch.data c (((selectedInds minPix ch dmap).get ⟨i, hi⟩).1 - 1))
            * td.warp.warpJacobianAtZero
                (td.warp.makePoint
                  (((selectedInds minPix ch dmap).get ⟨i, hi⟩).1 % ch.saliency.cols)
                  (((selectedInds minPix ch dmap).get ⟨i, hi⟩).1 / ch.saliency.cols)
                  ((selectedInds minPix ch dmap).get ⟨i, hi⟩).2) 0 j
          + td.warp.K 1 1 * (1/2 : ℚ)
            * (ch.data c (((selectedInds minPix ch dmap).get ⟨i, hi⟩).1 + ch.saliency.cols)
               - ch.data c (((selectedInds minPix ch dmap).get ⟨i, hi⟩).1 - ch.saliency.cols))
            * td.warp.warpJacobianAtZero
                (td.warp.makePoint
                  (((selectedInds minPix ch dmap).get ⟨i, hi⟩).1 % ch.saliency.cols)
                  (((selectedInds minPix ch dmap).get ⟨i, hi⟩).1 / ch.saliency.cols)
                  ((selectedInds minPix ch dmap).get ⟨i, hi⟩).2) 1 j) := by
  have hb : c * (selectedInds minPix ch dmap).length + i
      < ((List.range nc).flatMap (fun c =>
            (selectedInds minPix ch dmap).map (fun pr =>
              let ii := pr.1
              let Ix := ch.data c (ii + 1) - ch.data c (ii - 1)
              let Iy := ch.data c (ii + ch.saliency.cols) - ch.data c (ii - ch.saliency.cols)
              let Jw := td.warp.warpJacobianAtZero
                (td.warp.makePoint (ii % ch.saliency.cols) (ii / ch.saliency.cols) pr.2)
              fun j => td.warp.K 0 0 * (1/2 : ℚ) * Ix * Jw 0 j
                + td.warp.K 1 1 * (1/2 : ℚ) * Iy * Jw 1 j))).length := by
    rw [flatMap_blocks_length]
    calc c * (selectedInds minPix ch dmap).length + i
        < (c + 1) * (selectedInds minPix ch dmap).length := by rw [Nat.succ_mul]; omega
      _ ≤ nc * (selectedInds minPix ch dmap).length := Nat.mul_le_mul_right _ hc
  show (((List.range nc).flatMap _) ++ [jacobianZero P]).getD _ _ = _
  rw [List.getD_eq_getElem?_getD, List.getElem?_append_left hb,
    flatMap_blocks_getElem? _ _ _ _ _ hc hi]
  rfl

/-! ### Decomposing the selected pixel locations -/

theorem getValidPixelsLocations_mem {dmap : DMap} {smap : SMap} {r : ℤ} {b : Bool}
    {pr : ℤ × ℚ} (h : pr ∈ getValidPixelsLocations dmap smap r b) :
    ∃ y x : ℤ, max 2 r ≤ y ∧ y < smap.rows - max 2 r - 1 ∧
      max 2 r ≤ x ∧ x < smap.cols - max 2 r - 1 ∧
      ValidPixelPredicate dmap smap (if b then r else -1) y x = true ∧
      pr = (y * smap.cols + x, dmap.depth y x) := by
  unfold getValidPixelsLocations at h
  rw [List.mem_flatMap] at h
  obtain ⟨y, hy, hx⟩ := h
  rw [List.mem_filterMap] at hx
  obtain ⟨x, hxmem, hxeq⟩ := hx
  rw [mem_intRange] at hy hxmem
  by_cases hv : ValidPixelPredicate dmap smap (if b then r else -1) y x
  · rw [if_pos hv] at hxeq
    exact ⟨y, x, hy.1, hy.2, hxmem.1, hxmem.2, hv, (Option.some_inj.mp hxeq).symm⟩
  · rw [if_neg hv] at hxeq
    cases hxeq

theorem rowmajor_emod {y x cols : ℤ} (hx0 : 0 ≤ x) (hxc : x < cols) :
    (y * cols + x) % cols = x := by
  have hyx : y * cols + x = x + cols * y := by ring
  rw [hyx, Int.add_mul_emod_self_left, Int.emod_eq_of_lt hx0 hxc]

theorem rowmajor_ediv {y x cols : ℤ} (hx0 : 0 ≤ x) (hxc : x < cols) :
    (y * cols + x) / cols = y := by
  have hc : cols ≠ 0 := by omega
  have hyx : y * cols + x = x + cols * y := by ring
  rw [hyx, Int.add_mul_ediv_left _ _ hc, Int.ediv_eq_zero_of_lt hx0 hxc, zero_add]

/-! ### Claim theorems -/

/-- **C2**: in `computeResiduals` the interpolation base is chosen by
round-half-up, `xi = floor(x + 0.5)` and `yi = floor(y + 0.5)`, the
fractional offsets feeding the bilinear weights are `xf = x - xi` and
`yf = y - yi` relative to that rounded base, and consequently both offsets
always lie in `[-1/2, 1/2)`.  (`pointGeom` is the body of the per-point
geometry loop of `computeResiduals`, applied to every projected
coordinate.) -/
theorem pointGeom_rounding (max_rows max_cols : ℤ) (x : ℚ × ℚ) :
    (pointGeom max_rows max_cols x).xi = ⌊x.1 + 1/2⌋ ∧
    (pointGeom max_rows max_cols x).yi = ⌊x.2 + 1/2⌋ ∧
    (pointGeom max_rows max_cols x).w00
      = (1 - (x.2 - ((pointGeom max_rows max_cols x).yi : ℚ)))
          * (1 - (x.1 - ((pointGeom max_rows max_cols x).xi : ℚ))) ∧
    (pointGeom max_rows max_cols x).w01
      = (1 - (x.2 - ((pointGeom max_rows max_cols x).yi : ℚ)))
          * (x.1 - ((pointGeom max_rows max_cols x).xi : ℚ)) ∧
    (pointGeom max_rows max_cols x).w10
      = (x.2 - ((pointGeom max_rows max_cols x).yi : ℚ))
          * (1 - (x.1 - ((pointGeom max_rows max_cols x).xi : ℚ))) ∧
    (pointGeom max_rows max_cols x).w11
      = (x.2 - ((pointGeom max_rows max_cols x).yi : ℚ))
          * (x.1 - ((pointGeom max_rows max_cols x).xi : ℚ)) ∧
    -(1/2) ≤ x.1 - ((pointGeom max_rows max_cols x).xi : ℚ) ∧
    x.1 - ((pointGeom max_rows max_cols x).xi : ℚ) < 1/2 ∧
    -(1/2) ≤ x.2 - ((pointGeom max_rows max_cols x).yi : ℚ) ∧
    x.2 - ((pointGeom max_rows max_cols x).yi : ℚ) < 1/2 := by
  refine ⟨rfl, rfl, rfl, rfl, rfl, rfl, ?_, ?_, ?_, ?_⟩
  · exact roundHalfUp_sub_le x.1
  · exact roundHalfUp_sub_lt x.1
  · exact roundHalfUp_sub_le x.2
  · exact roundHalfUp_sub_lt x.2

/-- **C5**: after every call to `setData` (any prior store contents), with
`N` the number of selected pixels, `numPoints() = N`,
`numPixels() = N * NumChannels`, the Jacobian array has `N * NumChannels + 1`
entries, and its final entry is the all-zero Jacobian row. -/
theorem setData_store_invariants {Pt : Type} {nc P : ℕ} (minPix : ℤ)
    (td : TemplateData_ Pt nc P) (ch : Channels nc) (dmap : DMap) :
    (setData minPix td ch dmap).numPoints = (selectedInds minPix ch dmap).length ∧
    (setData minPix td ch dmap).numPixels = (selectedInds minPix ch dmap).length * nc ∧
    (setData minPix td ch dmap).jacobians.length
      = (selectedInds minPix ch dmap).length * nc + 1 ∧
    (setData minPix td ch dmap).jacobians.getLast? = some (jacobianZero P) := by
  refine ⟨setData_points_length minPix td ch dmap, ?_, ?_, ?_⟩
  · show ((List.range nc).flatMap _).length = _
    rw [flatMap_blocks_length, Nat.mul_comm]
  · show (((List.range nc).flatMap _) ++ [jacobianZero P]).length = _
    rw [List.length_append, flatMap_blocks_length, Nat.mul_comm]
    rfl
  · show (((List.range nc).flatMap _) ++ [jacobianZero P]).getLast? = _
    exact List.getLast?_concat _

/-- **C8**: `computeResiduals` leaves the stored points, pixels and
jacobians (and the pyramid level, hence `numPoints()`/`numPixels()`)
unchanged; the only template-data state it mutates is the warp's current
pose, which becomes exactly `setPose pose`. -/
theorem computeResiduals_readonly_store {Pt : Type} {nc P : ℕ}
    (td : TemplateData_ Pt nc P) (ch : Channels nc) (pose : Matrix44)
    (r0 : List ℚ) (v0 : List Bool) :
    (computeResiduals td ch pose r0 v0).tdata.points = td.points ∧
    (computeResiduals td ch pose r0 v0).tdata.pixels = td.pixels ∧
    (computeResiduals td ch pose r0 v0).tdata.jacobians = td.jacobians ∧
    (computeResiduals td ch pose r0 v0).tdata.pyr_level = td.pyr_level ∧
    (computeResiduals td ch pose r0 v0).tdata.numPoints = td.numPoints ∧
    (computeResiduals td ch pose r0 v0).tdata.numPixels = td.numPixels ∧
    (computeResiduals td ch pose r0 v0).tdata.warp = td.warp.setPose pose :=
  ⟨rfl, rfl, rfl, rfl, rfl, rfl, rfl⟩

/-- **C9** (implicit): `computeResiduals` sizes the caller-supplied output
buffers itself: whatever lists the caller passes in, on return `valid` has
length `numPoints()` and `residuals` has length `numPixels()`. -/
theorem computeResiduals_resizes_outputs {Pt : Type} {nc P : ℕ}
    (td : TemplateData_ Pt nc P) (ch : Channels nc) (pose : Matrix44)
    (r0 : List ℚ) (v0 : List Bool) :
    (computeResiduals td ch pose r0 v0).valid.length = td.numPoints ∧
    (computeResiduals td ch pose r0 v0).residuals.length = td.numPixels :=
  ⟨computeResiduals_valid_length td ch pose r0 v0,
   computeResiduals_residuals_length td ch pose r0 v0⟩

/-- The residual value claim C1 asserts for a valid point, written from the
claim's words: the bilinear blend `w00*I(xi,yi) + w01*I(xi+1,yi) +
w10*I(xi,yi+1) + w11*I(xi+1,yi+1)` of the four current-frame samples around
the rounded base cell `(xi, yi)`, with weights `w00=(1-yf)(1-xf)`,
`w01=(1-yf)xf`, `w10=yf(1-xf)`, `w11=yf*xf`, minus the stored reference
intensity for (point i, channel c). -/
def claimedResidual {Pt : Type} {nc P : ℕ} (td : TemplateData_ Pt nc P) (ch : Channels nc)
    (pose : Matrix44) (c i : ℕ) (hi : i < td.numPoints) : ℚ :=
  let x := (td.warp.setPose pose).proj (td.points.get ⟨i, hi⟩)
  let xi : ℤ := ⌊x.1 + 1/2⌋
  let yi : ℤ := ⌊x.2 + 1/2⌋
  let xf : ℚ := x.1 - (xi : ℚ)
  let yf : ℚ := x.2 - (yi : ℚ)
  ((1 - yf) * (1 - xf)) * ch.data c (yi * ch.cols + xi)
    + ((1 - yf) * xf) * ch.data c (yi * ch.cols + (xi + 1))
    + (yf * (1 - xf)) * ch.data c ((yi + 1) * ch.cols + xi)
    + (yf * xf) * ch.data c ((yi + 1) * ch.cols + (xi + 1))
    - td.pixels.getD (c * td.numPoints + i) 0

/-- **C1**: for every stored point `i` flagged valid and every channel `c`,
the residual written at slot `c*N + i` is the bilinear blend of the four
current-frame samples around the rounded base cell minus the stored
reference intensity for (point i, channel c), i.e. `claimedResidual`. -/
theorem computeResiduals_bilinear {Pt : Type} {nc P : ℕ} (td : TemplateData_ Pt nc P)
    (ch : Channels nc) (pose : Matrix44) (r0 : List ℚ) (v0 : List Bool) (c i : ℕ)
    (hi : i < td.numPoints) (hc : c < nc)
    (hpix : td.numPixels = nc * td.numPoints)
    (hvalid : (computeResiduals td ch pose r0 v0).valid.getD i false = true) :
    (computeResiduals td ch pose r0 v0).residuals.getD (c * td.numPoints + i) 0
      = claimedResidual td ch pose c i hi := by
  have hk : c * td.numPoints + i < td.numPixels := by
    rw [hpix]
    calc c * td.numPoints + i < (c + 1) * td.numPoints := by rw [Nat.succ_mul]; omega
      _ ≤ nc * td.numPoints := Nat.mul_le_mul_right _ hc
  rw [computeResiduals_residuals_getD td ch pose r0 v0 c i hi hc hk]
  rw [computeResiduals_valid_getD td ch pose r0 v0 i hi,
    pointGeoms_getD td ch pose i hi] at hvalid
  unfold residualEntry
  rw [pointGeoms_getD td ch pose i hi]
  simp only [hvalid, if_true]
  simp only [claimedResidual, pointGeom, roundHalfUp]
  ring_nf

/-- **C3**: a point is flagged valid iff its rounded base `(xi, yi)` lies in
`[0, cols-2] x [0, rows-2]`; and for every point flagged invalid the residual
slot of every channel is in range (still written) and holds exactly `0`. -/
theorem computeResiduals_valid_iff {Pt : Type} {nc P : ℕ} (td : TemplateData_ Pt nc P)
    (ch : Channels nc) (pose : Matrix44) (r0 : List ℚ) (v0 : List Bool) (i : ℕ)
    (hi : i < td.numPoints)
    (hpix : td.numPixels = nc * td.numPoints) :
    ((computeResiduals td ch pose r0 v0).valid.getD i false = true ↔
      (0 ≤ ⌊((td.warp.setPose pose).proj (td.points.get ⟨i, hi⟩)).1 + 1/2⌋ ∧
       ⌊((td.warp.setPose pose).proj (td.points.get ⟨i, hi⟩)).1 + 1/2⌋ < ch.cols - 1 ∧
       0 ≤ ⌊((td.warp.setPose pose).proj (td.points.get ⟨i, hi⟩)).2 + 1/2⌋ ∧
       ⌊((td.warp.setPose pose).proj (td.points.get ⟨i, hi⟩)).2 + 1/2⌋ < ch.rows - 1)) ∧
    ((computeResiduals td ch pose r0 v0).valid.getD i false = false →
      ∀ c : ℕ, c < nc →
        c * td.numPoints + i < (computeResiduals td ch pose r0 v0).residuals.length ∧
        (computeResiduals td ch pose r0 v0).residuals.getD (c * td.numPoints + i) 0 = 0) := by
  rw [computeResiduals_valid_getD td ch pose r0 v0 i hi, pointGeoms_getD td ch pose i hi]
  constructor
  · simp only [pointGeom, roundHalfUp, Bool.and_eq_true, decide_eq_true_eq, and_assoc]
  · intro hinvalid c hc
    have hk : c * td.numPoints + i < td.numPixels := by
      rw [hpix]
      calc c * td.numPoints + i < (c + 1) * td.numPoints := by rw [Nat.succ_mul]; omega
        _ ≤ nc * td.numPoints := Nat.mul_le_mul_right _ hc
    refine ⟨?_, ?_⟩
    · rw [computeResiduals_residuals_length]
      exact hk
    · rw [computeResiduals_residuals_getD td ch pose r0 v0 c i hi hc hk]
      unfold residualEntry
      rw [pointGeoms_getD td ch pose i hi]
      simp only [List.get_eq_getElem] at hinvalid
      simp [hinvalid]

/-- **C10** (implicit): for every point flagged valid by `computeResiduals`,
all four bilinear sample indices `ii`, `ii+1`, `ii+stride`, `ii+stride+1`
(`ii = yi*stride + xi`, `stride = cols`) lie within `[0, rows*cols)`, so the
interpolation pass never reads a channel buffer out of bounds for a valid
point. -/
theorem computeResiduals_valid_inbounds {Pt : Type} {nc P : ℕ} (td : TemplateData_ Pt nc P)
    (ch : Channels nc) (pose : Matrix44) (r0 : List ℚ) (v0 : List Bool) (i : ℕ)
    (hi : i < td.numPoints)
    (hvalid : (computeResiduals td ch pose r0 v0).valid.getD i false = true) :
    0 ≤ ⌊((td.warp.setPose pose).proj (td.points.get ⟨i, hi⟩)).2 + 1/2⌋ * ch.cols
        + ⌊((td.warp.setPose pose).proj (td.points.get ⟨i, hi⟩)).1 + 1/2⌋ ∧
    ⌊((td.warp.setPose pose).proj (td.points.get ⟨i, hi⟩)).2 + 1/2⌋ * ch.cols
        + ⌊((td.warp.setPose pose).proj (td.points.get ⟨i, hi⟩)).1 + 1/2⌋
      < ch.rows * ch.cols ∧
    ⌊((td.warp.setPose pose).proj (td.points.get ⟨i, hi⟩)).2 + 1/2⌋ * ch.cols
        + ⌊((td.warp.setPose pose).proj (td.points.get ⟨i, hi⟩)).1 + 1/2⌋ + 1
      < ch.rows * ch.cols ∧
    ⌊((td.warp.setPose pose).proj (td.points.get ⟨i, hi⟩)).2 + 1/2⌋ * ch.cols
        + ⌊((td.warp.setPose pose).proj (td.points.get ⟨i, hi⟩)).1 + 1/2⌋ + ch.cols
      < ch.rows * ch.cols ∧
    ⌊((td.warp.setPose pose).proj (td.points.get ⟨i, hi⟩)).2 + 1/2⌋ * ch.cols
        + ⌊((td.warp.setPose pose).proj (td.points.get ⟨i, hi⟩)).1 + 1/2⌋ + ch.cols + 1
      < ch.rows * ch.cols := by
  rw [computeResiduals_valid_getD td ch pose r0 v0 i hi,
    pointGeoms_getD td ch pose i hi] at hvalid
  simp only [pointGeom, roundHalfUp, Bool.and_eq_true, decide_eq_true_eq] at hvalid
  obtain ⟨⟨⟨hx0, hxc⟩, hy0⟩, hyr⟩ := hvalid
  set xi := ⌊((td.warp.setPose pose).proj (td.points.get ⟨i, hi⟩)).1 + 1/2⌋ with hxi
  set yi := ⌊((td.warp.setPose pose).proj (td.points.get ⟨i, hi⟩)).2 + 1/2⌋ with hyi
  have hcols : 0 < ch.cols := by omega
  have h1 : 0 ≤ yi * ch.cols := mul_nonneg hy0 (le_of_lt hcols)
  have h2 : (yi + 1) * ch.cols ≤ (ch.rows - 1) * ch.cols :=
    mul_le_mul_of_nonneg_right (by omega) (le_of_lt hcols)
  refine ⟨by omega, ?_, ?_, ?_, ?_⟩ <;> nlinarith

/-- **C4**: identity-pose round trip.  For a store populated by `setData`
from channels whose saliency map shares the image dimensions, if the warp's
projection under the given pose maps every stored point back to its original
integer sampling location (column `idx mod cols`, row `idx / cols`), then
`computeResiduals` on the same channels flags every retained point valid and
produces residual exactly `0` for it on every channel. -/
theorem computeResiduals_identity_pose {Pt : Type} {nc P : ℕ} (minPix : ℤ)
    (td : TemplateData_ Pt nc P) (ch : Channels nc) (dmap : DMap) (pose : Matrix44)
    (r0 : List ℚ) (v0 : List Bool)
    (hrows : ch.saliency.rows = ch.rows) (hcols : ch.saliency.cols = ch.cols)
    (hproj : ∀ (i : ℕ) (hp : i < (setData minPix td ch dmap).points.length),
      ((setData minPix td ch dmap).warp.setPose pose).proj
          ((setData minPix td ch dmap).points.get ⟨i, hp⟩)
        = (((((selectedInds minPix ch dmap).getD i (0, 0)).1 % ch.saliency.cols : ℤ) : ℚ),
           ((((selectedInds minPix ch dmap).getD i (0, 0)).1 / ch.saliency.cols : ℤ) : ℚ)))
    (i : ℕ) (hi : i < (setData minPix td ch dmap).numPoints) :
    (computeResiduals (setData minPix td ch dmap) ch pose r0 v0).valid.getD i false = true ∧
    ∀ c : ℕ, c < nc →
      (computeResiduals (setData minPix td ch dmap) ch pose r0 v0).residuals.getD
          (c * (setData minPix td ch dmap).numPoints + i) 0 = 0 := by
  have hnp : (setData minPix td ch dmap).numPoints = (selectedInds minPix ch dmap).length :=
    setData_points_length minPix td ch dmap
  have hiN : i < (selectedInds minPix ch dmap).length := by omega
  have hmem : (selectedInds minPix ch dmap).get ⟨i, hiN⟩ ∈ selectedInds minPix ch dmap :=
    List.get_mem _ _ hiN
  obtain ⟨y, x, hy1, hy2, hx1, hx2, hvp, heq⟩ := getValidPixelsLocations_mem hmem
  rw [show max (2:ℤ) 1 = 2 from by norm_num] at hy1 hy2 hx1 hx2
  have hx0 : (0:ℤ) ≤ x := by omega
  have hxcols : x < ch.saliency.cols := by omega
  have hgetd : (selectedInds minPix ch dmap).getD i (0, 0)
      = (selectedInds minPix ch dmap).get ⟨i, hiN⟩ := by
    rw [List.getD_eq_getElem?_getD, List.getElem?_eq_getElem hiN]
    rfl
  have hg : (pointGeoms (setData minPix td ch dmap) ch pose).getD i geomDefault
      = pointGeom (ch.rows - 1) (ch.cols - 1) (((x : ℤ) : ℚ), ((y : ℤ) : ℚ)) := by
    rw [pointGeoms_getD (setData minPix td ch dmap) ch pose i hi, hproj i hi, hgetd, heq]
    simp only [rowmajor_emod hx0 hxcols, rowmajor_ediv hx0 hxcols]
  have hcond : (decide ((0:ℤ) ≤ x) && decide (x < ch.cols - 1) &&
      decide ((0:ℤ) ≤ y) && decide (y < ch.rows - 1)) = true := by
    simp only [Bool.and_eq_true, decide_eq_true_eq]
    refine ⟨⟨⟨?_, ?_⟩, ?_⟩, ?_⟩ <;> omega
  constructor
  · rw [computeResiduals_valid_getD (setData minPix td ch dmap) ch pose r0 v0 i hi, hg]
    simp only [pointGeom, roundHalfUp_intCast]
    exact hcond
  · intro c hc
    have hpix : (setData minPix td ch dmap).numPixels
        = nc * (setData minPix td ch dmap).numPoints := by
      show ((List.range nc).flatMap _).length = _
      rw [flatMap_blocks_length, hnp]
    have hk : c * (setData minPix td ch dmap).numPoints + i
        < (setData minPix td ch dmap).numPixels := by
      rw [hpix]
      calc c * (setData minPix td ch dmap).numPoints + i
          < (c + 1) * (setData minPix td ch dmap).numPoints := by rw [Nat.succ_mul]; omega
        _ ≤ nc * (setData minPix td ch dmap).numPoints := Nat.mul_le_mul_right _ hc
    rw [computeResiduals_residuals_getD (setData minPix td ch dmap) ch pose r0 v0 c i hi hc hk]
    unfold residualEntry
    rw [hg]
    simp only [pointGeom, roundHalfUp_intCast, hcond, if_true]
    have hpx : (setData minPix td ch dmap).pixels.getD
        (c * (setData minPix td ch dmap).numPoints + i) 0 = ch.data c (y * ch.saliency.cols + x) := by
      rw [hnp, setData_pixels_getD minPix td ch dmap c i hc hiN, heq]
    rw [hpx, hcols]
    ring
/-- **C6**: for every selected point `i` and channel `c`, `setData` stores
`pixels[c*N+i] = I_c(idx)`, stores as point `i` the back-projection of
(column `idx mod stride`, row `idx / stride`, depth), and stores
`jacobians[c*N+i]` equal to the 1x2 row `[Fx*Ix, Fy*Iy]` times the point's
warp Jacobian at the identity pose, with `Ix = I[idx+1] - I[idx-1]`,
`Iy = I[idx+stride] - I[idx-stride]`, `Fx = K(0,0)/2`, `Fy = K(1,1)/2`,
and `stride` the saliency map's cols. -/
theorem setData_stores_gradient_jacobians {Pt : Type} {nc P : ℕ} (minPix : ℤ)
    (td : TemplateData_ Pt nc P) (ch : Channels nc) (dmap : DMap) (c i : ℕ)
    (hc : c < nc) (hi : i < (selectedInds minPix ch dmap).length) :
    (setData minPix td ch dmap).pixels.getD (c * (selectedInds minPix ch dmap).length + i) 0
      = ch.data c ((selectedInds minPix ch dmap).get ⟨i, hi⟩).1 ∧
    (∀ (hp : i < (setData minPix td ch dmap).points.length),
      (setData minPix td ch dmap).points.get ⟨i, hp⟩
        = td.warp.makePoint
            (((selectedInds minPix ch dmap).get ⟨i, hi⟩).1 % ch.saliency.cols)
            (((selectedInds minPix ch dmap).get ⟨i, hi⟩).1 / ch.saliency.cols)
            ((selectedInds minPix ch dmap).get ⟨i, hi⟩).2) ∧
    ∀ j : Fin P,
      (setData minPix td ch dmap).jacobians.getD
          (c * (selectedInds minPix ch dmap).length + i) (jacobianZero P) j
        = td.warp.K 0 0 / 2
            * (ch.data c (((selectedInds minPix ch dmap).get ⟨i, hi⟩).1 + 1)
               - ch.data c (((selectedInds minPix ch dmap).get ⟨i, hi⟩).1 - 1))
            * td.warp.warpJacobianAtZero
                (td.warp.makePoint
                  (((selectedInds minPix ch dmap).get ⟨i, hi⟩).1 % ch.saliency.cols)
                  (((selectedInds minPix ch dmap).get ⟨i, hi⟩).1 / ch.saliency.cols)
                  ((selectedInds minPix ch dmap).get ⟨i, hi⟩).2) 0 j
          + td.warp.K 1 1 / 2
            * (ch.data c (((selectedInds minPix ch dmap).get ⟨i, hi⟩).1 + ch.saliency.cols)
               - ch.data c (((selectedInds minPix ch dmap).get ⟨i, hi⟩).1 - ch.saliency.cols))
            * td.warp.warpJacobianAtZero
                (td.warp.makePoint
                  (((selectedInds minPix ch dmap).get ⟨i, hi⟩).1 % ch.saliency.cols)
                  (((selectedInds minPix ch dmap).get ⟨i, hi⟩).1 / ch.saliency.cols)
                  ((selectedInds minPix ch dmap).get ⟨i, hi⟩).2) 1 j := by
  refine ⟨setData_pixels_getD minPix td ch dmap c i hc hi, ?_, ?_⟩
  · intro hp
    exact setData_points_get minPix td ch dmap i hp hi
  · intro j
    rw [setData_jacobians_getD minPix td ch dmap c i hc hi]
    ring

/-! ### Claim C7: pixel selection with NMS disabled -/

/-- Selection rule exactly as claim C7 states it, written from the claim's
words: every valid-depth pixel strictly inside a margin of
`max(2, nms_radius)` pixels from every edge, in row-major order. -/
def claimedSelection (dmap : DMap) (smap : SMap) (nms_radius : ℤ) : List (ℤ × ℚ) :=
  let border : ℤ := max 2 nms_radius
  (intRange border (smap.rows - border)).flatMap (fun y =>
    (intRange border (smap.cols - border)).filterMap (fun x =>
      if dmap.validAt y x then some (y * smap.cols + x, dmap.depth y x) else none))

/-- The selection the code actually performs with NMS disabled, written from
the amended claim: margin `max(2, nms_radius)` at the top/left edges but
`max(2, nms_radius) + 1` at the bottom/right edges. -/
def amendedSelection (dmap : DMap) (smap : SMap) (nms_radius : ℤ) : List (ℤ × ℚ) :=
  let border : ℤ := max 2 nms_radius
  (intRange border (smap.rows - border - 1)).flatMap (fun y =>
    (intRange border (smap.cols - border - 1)).filterMap (fun x =>
      if dmap.validAt y x then some (y * smap.cols + x, dmap.depth y x) else none))

/-- A 7x7 depth map with every reading valid (counterexample input). -/
def cexDMap : DMap :=
  { depth := fun _ _ => 1, validAt := fun _ _ => true }

/-- A 7x7 saliency map (counterexample input). -/
def cexSMap : SMap :=
  { rows := 7, cols := 7, val := fun _ _ => 0 }

/-- **C7 counterexample**: on a 7x7 map with every depth reading valid and
NMS disabled (radius 1, border `max(2,1) = 2`), the pixel `(y,x) = (4,4)`
(linear index 32) has valid depth and lies strictly inside the claimed
margin of 2 pixels from every edge, yet `getValidPixelsLocations` does not
select it: the loop stops at `rows - border - 1`, excluding one extra pixel
at the bottom and right edges. -/
theorem getValidPixelsLocations_margin_cex :
    ((32 : ℤ), (1 : ℚ)) ∈ claimedSelection cexDMap cexSMap 1 ∧
    ((32 : ℤ), (1 : ℚ)) ∉ getValidPixelsLocations cexDMap cexSMap 1 false ∧
    getValidPixelsLocations cexDMap cexSMap 1 false ≠ claimedSelection cexDMap cexSMap 1 :=
  ⟨by decide, by decide, by decide⟩

theorem filterMap_if_eq_map_filter {α β : Type} (p : α → Bool) (g : α → β) (l : List α) :
    l.filterMap (fun x => if p x then some (g x) else none) = (l.filter p).map g := by
  induction l with
  | nil => rfl
  | cons a t ih =>
    rw [List.filterMap_cons, List.filter_cons]
    by_cases h : p a
    · simp [h, ih]
    · simp [h, ih]

theorem intRange_pairwise (lo hi : ℤ) : List.Pairwise (· < ·) (intRange lo hi) := by
  unfold intRange
  rw [List.pairwise_map]
  exact (List.pairwise_lt_range _).imp (by intro a b hab; omega)

/-- **C7 (amended)**: with NMS disabled, pixel selection returns exactly the
pixels with a valid depth reading whose coordinates satisfy
`max(2,r) ≤ y < rows - max(2,r) - 1` and `max(2,r) ≤ x < cols - max(2,r) - 1`
— a margin of `max(2, nms_radius)` from the top and left edges but
`max(2, nms_radius) + 1` from the bottom and right edges — each exactly
once, paired with its depth value, in row-major order (the linear pixel
indices of the output are strictly increasing). -/
theorem getValidPixelsLocations_no_nms (dmap : DMap) (smap : SMap) (r : ℤ) :
    getValidPixelsLocations dmap smap r false = amendedSelection dmap smap r ∧
    List.Pairwise (fun a b : ℤ × ℚ => a.1 < b.1)
      (getValidPixelsLocations dmap smap r false) := by
  have hpred : ∀ y x : ℤ, ValidPixelPredicate dmap smap (-1) y x = dmap.validAt y x := by
    intro y x
    unfold ValidPixelPredicate
    simp
  have heq : getValidPixelsLocations dmap smap r false = amendedSelection dmap smap r := by
    unfold getValidPixelsLocations amendedSelection
    simp only [Bool.false_eq_true, if_false, hpred]
  refine ⟨heq, ?_⟩
  rw [heq]
  unfold amendedSelection
  rw [List.pairwise_flatMap]
  have hb : (2 : ℤ) ≤ max 2 r := le_max_left 2 r
  constructor
  · intro y hy
    rw [filterMap_if_eq_map_filter, List.pairwise_map]
    refine (List.Pairwise.sublist (List.filter_sublist _) (intRange_pairwise _ _)).imp ?_
    intro a b hab
    simp only
    omega
  · refine (intRange_pairwise _ _).imp ?_
    intro y y' hyy a ha b hbm
    rw [List.mem_filterMap] at ha hbm
    obtain ⟨x, hxm, hxe⟩ := ha
    obtain ⟨x', hxm', hxe'⟩ := hbm
    rw [mem_intRange] at hxm hxm'
    have hax : a.1 = y * smap.cols + x := by
      by_cases h : dmap.validAt y x
      · rw [if_pos h] at hxe
        rw [← Option.some_inj.mp hxe]
      · rw [if_neg h] at hxe
        cases hxe
    have hbx : b.1 = y' * smap.cols + x' := by
      by_cases h : dmap.validAt y' x'
      · rw [if_pos h] at hxe'
        rw [← Option.some_inj.mp hxe']
      · rw [if_neg h] at hxe'
        cases hxe'
    rw [hax, hbx]
    have hmul : (y + 1) * smap.cols ≤ y' * smap.cols :=
      mul_le_mul_of_nonneg_right (by omega) (by omega)
    have hexp : (y + 1) * smap.cols = y * smap.cols + smap.cols := by ring
    omega

/-! ### Concrete witness instance: a 7x7 single-channel, single-pose-parameter
store with identity-like projection -/

/-- The zero 4x4 pose matrix used as the concrete candidate pose. -/
def pose0 : Matrix44 := fun _ _ => 0

/-- A concrete warp on points `(x, y) : ℤ × ℤ` whose projection returns the
point's own pixel coordinates for any pose ("no motion"). -/
def wWarp : Warp (ℤ × ℤ) 1 :=
  { pose := pose0,
    makePoint := fun x y _ => (x, y),
    warpJacobianAtZero := fun _ _ _ => 1,
    project := fun _ p => ((p.1 : ℚ), (p.2 : ℚ)),
    K := fun _ _ => 2 }

/-- A concrete warp projecting every point far outside the image. -/
def wWarpBad : Warp (ℤ × ℤ) 1 :=
  { pose := pose0,
    makePoint := fun x y _ => (x, y),
    warpJacobianAtZero := fun _ _ _ => 1,
    project := fun _ _ => (-10, -10),
    K := fun _ _ => 2 }

/-- A concrete 7x7 single-channel image whose intensity is the linear index,
with a 7x7 saliency map. -/
def wChannels : Channels 1 :=
  { rows := 7, cols := 7, data := fun _ idx => (idx : ℚ),
    saliency := { rows := 7, cols := 7, val := fun _ _ => 0 } }

/-- A concrete depth map with every reading valid. -/
def wDMap : DMap := { depth := fun _ _ => 1, validAt := fun _ _ => true }

/-- An empty store bound to `wWarp`. -/
def wTD0 : TemplateData_ (ℤ × ℤ) 1 1 :=
  { pyr_level := 0, points := [], pixels := [], jacobians := [], warp := wWarp }

/-- An empty store bound to `wWarpBad`. -/
def wTDbad0 : TemplateData_ (ℤ × ℤ) 1 1 :=
  { pyr_level := 0, points := [], pixels := [], jacobians := [], warp := wWarpBad }

/-- The store `setData` extracts from the concrete inputs (4 points). -/
def wTD : TemplateData_ (ℤ × ℤ) 1 1 := setData 1000 wTD0 wChannels wDMap

/-- The same store but with the off-image warp. -/
def wTDbad : TemplateData_ (ℤ × ℤ) 1 1 := setData 1000 wTDbad0 wChannels wDMap

/-- The projected coordinate of stored point 0 of `wTD` under `pose0`. -/
def wProj : ℚ × ℚ := (wTD.warp.setPose pose0).proj (wTD.points.get ⟨0, by decide⟩)

/-- The selected linear index of point 0 (equals 16 = 2*7+2). -/
def wIdx : ℤ := ((selectedInds 1000 wChannels wDMap).get ⟨0, by decide⟩).1

/-- The selected depth of point 0. -/
def wDep : ℚ := ((selectedInds 1000 wChannels wDMap).get ⟨0, by decide⟩).2

/-- Witness for C1: the hypotheses hold at the concrete store, and the
theorem yields the bilinear-blend value at slot 0. -/
theorem computeResiduals_bilinear_witness :
    (0 < wTD.numPoints ∧ (0:ℕ) < 1 ∧ wTD.numPixels = 1 * wTD.numPoints ∧
      (computeResiduals wTD wChannels pose0 [] []).valid.getD 0 false = true) ∧
    (computeResiduals wTD wChannels pose0 [] []).residuals.getD (0 * wTD.numPoints + 0) 0
      = claimedResidual wTD wChannels pose0 0 0 (by decide) :=
  ⟨⟨by decide, by decide, by decide, by decide⟩,
   computeResiduals_bilinear wTD wChannels pose0 [] [] 0 0 (by decide) (by decide)
     (by decide) (by decide)⟩

/-- Witness for C3: at the off-image store point 0 is flagged invalid and
its residual slot is in range and exactly 0. -/
theorem computeResiduals_valid_iff_witness :
    (0 < wTDbad.numPoints ∧ wTDbad.numPixels = 1 * wTDbad.numPoints ∧
      (computeResiduals wTDbad wChannels pose0 [] []).valid.getD 0 false = false) ∧
    (0 * wTDbad.numPoints + 0 < (computeResiduals wTDbad wChannels pose0 [] []).residuals.length ∧
      (computeResiduals wTDbad wChannels pose0 [] []).residuals.getD
        (0 * wTDbad.numPoints + 0) 0 = 0) :=
  ⟨⟨by decide, by decide, by decide⟩,
   (computeResiduals_valid_iff wTDbad wChannels pose0 [] [] 0 (by decide) (by decide)).2
     (by decide) 0 (by decide)⟩

/-- Witness for C4: the concrete warp maps every stored point back to its
sampling location, and the theorem yields validity and zero residuals for
point 0. -/
theorem computeResiduals_identity_pose_witness :
    (wChannels.saliency.rows = wChannels.rows ∧
     wChannels.saliency.cols = wChannels.cols ∧
     0 < (setData 1000 wTD0 wChannels wDMap).numPoints) ∧
    ((computeResiduals (setData 1000 wTD0 wChannels wDMap) wChannels pose0 [] []).valid.getD
        0 false = true ∧
     ∀ c : ℕ, c < 1 →
       (computeResiduals (setData 1000 wTD0 wChannels wDMap) wChannels pose0 [] []).residuals.getD
         (c * (setData 1000 wTD0 wChannels wDMap).numPoints + 0) 0 = 0) :=
  ⟨⟨by decide, by decide, by decide⟩,
   computeResiduals_identity_pose 1000 wTD0 wChannels wDMap pose0 [] []
     (by decide) (by decide) (by decide) 0 (by decide)⟩

/-- Witness for C6: at the concrete store, slot 0 holds the raw intensity at
index 16, and the Jacobian row evaluates to the gradient formula (value 16:
`Fx*Ix + Fy*Iy = 1*2 + 1*14` with unit warp Jacobian). -/
theorem setData_stores_gradient_jacobians_witness :
    ((0:ℕ) < 1 ∧ 0 < (selectedInds 1000 wChannels wDMap).length) ∧
    wTD.pixels.getD (0 * (selectedInds 1000 wChannels wDMap).length + 0) 0
      = wChannels.data 0 wIdx ∧
    wTD.jacobians.getD (0 * (selectedInds 1000 wChannels wDMap).length + 0)
        (jacobianZero 1) ⟨0, by decide⟩
      = wTD0.warp.K 0 0 / 2
          * (wChannels.data 0 (wIdx + 1) - wChannels.data 0 (wIdx - 1))
          * wTD0.warp.warpJacobianAtZero
              (wTD0.warp.makePoint (wIdx % wChannels.saliency.cols)
                (wIdx / wChannels.saliency.cols) wDep) 0 ⟨0, by decide⟩
        + wTD0.warp.K 1 1 / 2
          * (wChannels.data 0 (wIdx + wChannels.saliency.cols)
             - wChannels.data 0 (wIdx - wChannels.saliency.cols))
          * wTD0.warp.warpJacobianAtZero
              (wTD0.warp.makePoint (wIdx % wChannels.saliency.cols)
                (wIdx / wChannels.saliency.cols) wDep) 1 ⟨0, by decide⟩ :=
  ⟨⟨by decide, by decide⟩,
   (setData_stores_gradient_jacobians 1000 wTD0 wChannels wDMap 0 0
      (by decide) (by decide)).1,
   (setData_stores_gradient_jacobians 1000 wTD0 wChannels wDMap 0 0
      (by decide) (by decide)).2.2 ⟨0, by decide⟩⟩

/-- Witness for C10: point 0 of the concrete store is valid and its four
bilinear sample indices lie inside the 7x7 buffer. -/
theorem computeResiduals_valid_inbounds_witness :
    (0 < wTD.numPoints ∧
      (computeResiduals wTD wChannels pose0 [] []).valid.getD 0 false = true) ∧
    (0 ≤ ⌊wProj.2 + 1/2⌋ * wChannels.cols + ⌊wProj.1 + 1/2⌋ ∧
     ⌊wProj.2 + 1/2⌋ * wChannels.cols + ⌊wProj.1 + 1/2⌋ < wChannels.rows * wChannels.cols ∧
     ⌊wProj.2 + 1/2⌋ * wChannels.cols + ⌊wProj.1 + 1/2⌋ + 1 < wChannels.rows * wChannels.cols ∧
     ⌊wProj.2 + 1/2⌋ * wChannels.cols + ⌊wProj.1 + 1/2⌋ + wChannels.cols
       < wChannels.rows * wChannels.cols ∧
     ⌊wProj.2 + 1/2⌋ * wChannels.cols + ⌊wProj.1 + 1/2⌋ + wChannels.cols + 1
       < wChannels.rows * wChannels.cols) :=
  ⟨⟨by decide, by decide⟩,
   computeResiduals_valid_inbounds wTD wChannels pose0 [] [] 0 (by decide) (by decide)⟩

end bpvo
